import Mathlib

/-!
Verification of the hex-address repository: configuration generation,
Hamiltonian base-cell ordering, and the syllable address codec.

Definitions in the first two sections are transcribed from the Python
sources under `scripts/configs` and `scripts/hamiltonian`.  The codec
itself (package `h3_syllable`) is not part of the sources available
here, so its model is derived from the specification text, as the
doc comments note.
-/

/-! ## Configuration generator (scripts/configs/generate_configs.py) -/

/-- The H3 target space `122 * 7^15` (`ConfigGenerator.__init__`). -/
def h3Target : Nat := 122 * 7 ^ 15

/-- Iterative pair `(f (n+1), f (n+2))` of the recurrence
`f 1 = k`, `f 2 = k*(k-1)`, `f n = (k-1) * (f (n-1) + f (n-2))`
used by `calculate_min_syllables_needed` for `max_consecutive = 1`. -/
def constrainedPair (k : Nat) : Nat → Nat × Nat
  | 0 => (k, k * (k - 1))
  | n + 1 =>
    let p := constrainedPair k n
    (p.2, (k - 1) * (p.2 + p.1))

/-- Number of length-`L` sequences as computed by the generator loop in
`calculate_min_syllables_needed` (the `max_consecutive = 1` recurrence). -/
def constrainedSpace (k : Nat) : Nat → Nat
  | 0 => 0
  | 1 => k
  | n + 2 => (constrainedPair k n).2

/-- Mirrors `ConfigGenerator.calculate_min_syllables_needed`: the first length in
`1..19` whose constrained space reaches the H3 target, else `none`. -/
def calculateMinSyllablesNeeded (consonants vowels : Nat) : Option Nat :=
  (List.range' 1 19).find? (fun length => h3Target ≤ constrainedSpace (consonants * vowels) length)

/-- The `ascii` alphabet characters, in declared order. -/
def asciiChars : List Char :=
  ['a', 'b', 'c', 'd', 'e', 'f', 'g', 'h', 'i', 'j', 'k', 'l', 'm',
   'n', 'o', 'p', 'q', 'r', 's', 't', 'u', 'v', 'w', 'x', 'y', 'z']

/-- Membership in the `ascii` alphabet's vowel set. -/
def isVowel (c : Char) : Bool := c ∈ ['a', 'e', 'i', 'o', 'u']

/-- Mirrors `ConfigGenerator.create_binary_array`: 0/1 membership vector of the
selected letters over the alphabet characters in declared order. -/
def createBinaryArray (selected : List Char) : List Nat :=
  asciiChars.map (fun c => if c ∈ selected then 1 else 0)

/-- The little-endian value `Σ bits[i] * 2^i` computed by the first loop of
`ConfigGenerator.binary_to_base26`. -/
def binaryValue (bits : List Nat) : Nat :=
  bits.enum.foldl (fun acc p => acc + p.2 * 2 ^ p.1) 0

/-- The digit-emitting loop of `binary_to_base26`: repeatedly prepend
`chr(ord('a') + v % 26)` and divide by 26. -/
def base26Aux (v : Nat) (acc : List Char) : List Char :=
  if h : v = 0 then acc
  else base26Aux (v / 26) (Char.ofNat (97 + v % 26) :: acc)
termination_by v
decreasing_by exact Nat.div_lt_self (Nat.pos_of_ne_zero h) (by decide)

/-- Mirrors `ConfigGenerator.binary_to_base26`. -/
def binaryToBase26 (bits : List Nat) : List Char :=
  if binaryValue bits = 0 then ['a'] else base26Aux (binaryValue bits) []

/-- The canonical identifier of a letter selection. -/
def identifierOf (selected : List Char) : List Char :=
  binaryToBase26 (createBinaryArray selected)

/-- Insertion of a character into a sorted list, for the `sorted(...)`
calls of the generator. -/
def insertSorted (c : Char) : List Char → List Char
  | [] => [c]
  | x :: xs => if c ≤ x then c :: x :: xs else x :: insertSorted c xs

/-- Lexicographic sort, modelling Python's `sorted` on letter lists. -/
def sortLetters (l : List Char) : List Char := l.foldr insertSorted []

/-- The fields of the configuration dict built by
`ConfigGenerator.generate_config_from_letters` that the claims refer to. -/
structure GeneratedConfig where
  name : List Char
  consonants : List Char
  vowels : List Char
  addressLength : Nat
  base26Id : List Char
  binaryArr : List Nat
  selectedLetters : List Char
deriving DecidableEq, Repr

/-- Mirrors `ConfigGenerator.generate_config_from_letters` for the `ascii`
alphabet: validation, consonant/vowel partition, minimum length, and
identifier, in the order of the source. -/
def generateConfigFromLetters (letters : List Char) : Except (List Char) GeneratedConfig :=
  if ¬ letters.all (fun l => l ∈ asciiChars) then
    .error ['n', 'o', 't', '-', 'a', 's', 'c', 'i', 'i']
  else
    let vowels := letters.filter (fun l => isVowel l)
    let consonants := letters.filter (fun l => ¬ isVowel l)
    if vowels = [] then .error ['n', 'o', '-', 'v', 'o', 'w', 'e', 'l']
    else if consonants = [] then .error ['n', 'o', '-', 'c', 'o', 'n', 's']
    else
      match calculateMinSyllablesNeeded consonants.length vowels.length with
      | none => .error ['n', 'o', '-', 'c', 'o', 'v', 'e', 'r']
      | some minLength =>
        let base26Id := binaryToBase26 (createBinaryArray letters)
        .ok
          { name := ['a', 's', 'c', 'i', 'i', '-'] ++ base26Id
            consonants := sortLetters consonants
            vowels := sortLetters vowels
            addressLength := minLength
            base26Id := base26Id
            binaryArr := createBinaryArray letters
            selectedLetters := sortLetters letters }

/-! ## Hamiltonian ordering (scripts/hamiltonian/h3_hamiltonian_ordering.py)

The adjacency graph is built from the external H3 library, so it enters
the model as a parameter `graph : Nat → List Nat` (the adjacency lists),
together with the list `cells` of base-cell numbers.  The backtracking
search involves wall-clock time, so its outcome enters as a parameter
`searchResult`; the claims only concern what happens after the search. -/

/-- Adjacency check of the validation loop: every consecutive pair
`path[i], path[i+1]` satisfies `path[i+1] ∈ graph[path[i]]`. -/
def pairsAdjacent (graph : Nat → List Nat) : List Nat → Bool
  | [] => true
  | [_] => true
  | a :: b :: rest => (graph a).contains b && pairsAdjacent graph (b :: rest)

/-- Mirrors `H3HamiltonianOrderingGenerator.validate_path`, collapsed to the
condition the caller tests (`valid and is_hamiltonian`): right length,
no duplicates, same cell set, and a 100% adjacency rate (which for a
path with at least one pair means every pair is adjacent). -/
def validatePath (cells : List Nat) (graph : Nat → List Nat) (path : List Nat) : Bool :=
  path.length == cells.length &&
  decide path.Nodup &&
  (cells.all (fun c => path.contains c) && path.all (fun c => cells.contains c)) &&
  decide (1 < path.length) &&
  pairsAdjacent graph path

/-- Position dictionary of `generate_ordering_config`, as the association
list `original_cell ↦ new_position` in enumeration order. -/
def positionEntries (path : List Nat) : List (Nat × Nat) :=
  path.enum.map (fun p => (p.2, p.1))

/-- Dictionary lookup with Python dict semantics for the comprehension
that built it: a later binding of the same key overwrites an earlier one. -/
def dictLookup (entries : List (Nat × Nat)) (key : Nat) : Option Nat :=
  entries.foldl (fun acc p => if p.1 == key then some p.2 else acc) none

/-- The fields of the record built by
`H3HamiltonianOrderingGenerator.generate_ordering_config` that the
claims refer to. -/
structure OrderingConfig where
  cellOrder : List Nat
  positionMap : List (Nat × Nat)
deriving DecidableEq, Repr

/-- Mirrors `generate_ordering_config`: `cell_order` is the path itself and
`position_map` maps each original cell to its position. -/
def generateOrderingConfig (path : List Nat) : OrderingConfig :=
  { cellOrder := path
    positionMap := positionEntries path }

/-- Mirrors `H3HamiltonianOrderingGenerator.generate_hamiltonian_ordering` after
the search: an empty or absent path yields `None`; a found path is
validated and only then turned into a record. -/
def generateHamiltonianOrdering (cells : List Nat) (graph : Nat → List Nat)
    (searchResult : Option (List Nat)) : Option OrderingConfig :=
  match searchResult with
  | none => none
  | some path =>
    if path = [] then none
    else if validatePath cells graph path then some (generateOrderingConfig path)
    else none

/-! ## Syllable codec and system facade

The package `h3_syllable` (cell index codec, syllable codec, facade,
partial estimator) is not among the available sources — only its tests
and callers are.  The definitions below are therefore modelled from the
specification (§4.1, §4.3, §4.4, §4.6, §4.7). -/

/-- Modelled from the spec: base-`b` digit extraction by successive
division (§4.3, §4.4), least significant digit first, `len` digits. -/
def intToDigitsLE (b : Nat) : Nat → Nat → List Nat
  | 0, _ => []
  | len + 1, n => n % b :: intToDigitsLE b len (n / b)

/-- Modelled from the spec: fold digits most-significant first,
`N = Σ s_j * b^(len-1-j)` (§4.4). -/
def digitsMSVal (b : Nat) (ds : List Nat) : Nat :=
  ds.foldl (fun acc d => acc * b + d) 0

/-- Modelled from the spec: representation of `n` in base `b` with exactly
`len` digits, leading zeros explicit, most significant first (§4.4). -/
def intToDigits (b len n : Nat) : List Nat :=
  (intToDigitsLE b len n).reverse

/-- The constant `7^15`, the size of the child-digit space under one base cell. -/
def seven15 : Nat := 7 ^ 15

/-- A hierarchical tuple `(b, d_1..d_15)` is valid when `b < 122`, there
are 15 child digits and each is `< 7` (§3, Data Model). -/
def ValidTuple (t : Nat × List Nat) : Prop :=
  t.1 < 122 ∧ t.2.length = 15 ∧ ∀ d ∈ t.2, d < 7

/-- Modelled from the spec: the syllable configuration (sorted consonants,
sorted vowels, address length) of §3 and §4.4. -/
structure SyllableConfig where
  consonants : List Char
  vowels : List Char
  addressLength : Nat

/-- The syllable count `A = C * V`. -/
def totalSyllables (cfg : SyllableConfig) : Nat :=
  cfg.consonants.length * cfg.vowels.length

/-- Modelled from the spec: a digit `s` decomposes as
`(ci, vi) = (s / V, s mod V)`; emit consonant then vowel (§4.4). -/
def digitChars (cfg : SyllableConfig) (s : Nat) : List Char :=
  [cfg.consonants.getD (s / cfg.vowels.length) 'a',
   cfg.vowels.getD (s % cfg.vowels.length) 'a']

/-- Modelled from the spec: integer → syllable string; `L` base-`A`
digits, most significant first, each rendered as consonant+vowel (§4.4). -/
def intToChars (cfg : SyllableConfig) (n : Nat) : List Char :=
  ((intToDigits (totalSyllables cfg) cfg.addressLength n).map (digitChars cfg)).flatten

/-- Index of the first occurrence of a character in a letter list, the
lookup used by the syllable parser. -/
def idxOf? (x : Char) : List Char → Option Nat
  | [] => none
  | y :: ys => if y = x then some 0 else (idxOf? x ys).map (fun i => i + 1)

/-- Modelled from the spec: parse a character list into syllable digits,
two characters per syllable; unknown consonant, unknown vowel, or a
trailing odd character is a parse error (§4.4). -/
def parseSyllables (cfg : SyllableConfig) : List Char → Option (List Nat)
  | [] => some []
  | c :: v :: rest =>
    match idxOf? c cfg.consonants, idxOf? v cfg.vowels, parseSyllables cfg rest with
    | some ci, some vi, some ds => some ((ci * cfg.vowels.length + vi) :: ds)
    | _, _, _ => none
  | [_] => none

/-- Modelled from the spec: syllable string → integer; the length must be
exactly `2L`, every syllable must be known, and the folded value must be
in range `[0, 122 * 7^15)` (§4.4). -/
def charsToInt (cfg : SyllableConfig) (chars : List Char) : Option Nat :=
  if chars.length = 2 * cfg.addressLength then
    match parseSyllables cfg chars with
    | none => none
    | some ds =>
      if digitsMSVal (totalSyllables cfg) ds < h3Target then
        some (digitsMSVal (totalSyllables cfg) ds)
      else none
  else none

/-- Modelled from the spec: the grid adapter interface of §4.1.  Its
documented invariants (the hierarchy is a bijection between resolution-15
cells and valid tuples, `decode` returns the cell's canonical center so
re-encoding it lands in the same cell, and the center is within one
circumradius of any coordinate of the cell) appear as hypotheses of the
theorems that need them. -/
structure GridAdapter (Coord Cell : Type) where
  encode : Coord → Cell
  decode : Cell → Coord
  hierarchy : Cell → Nat × List Nat
  compose : Nat × List Nat → Cell
  dist : Coord → Coord → Rat
  circumradius : Rat

/-- Modelled from the spec: `coordinate → address` (§4.6): encode to a
cell, decompose, reorder the base index through `perm`, pack into the
cell integer, and render as syllables. -/
def coordinateToSyllable {Coord Cell : Type} (g : GridAdapter Coord Cell)
    (cfg : SyllableConfig) (perm : Nat → Nat) (co : Coord) : List Char :=
  let t := g.hierarchy (g.encode co)
  intToChars cfg (perm t.1 * seven15 + digitsMSVal 7 t.2)

/-- Modelled from the spec: `address → coordinate` (§4.6): parse to the
cell integer, split off the ordered base index, invert the permutation,
compose the cell and decode to its canonical center. -/
def syllableToCoordinate {Coord Cell : Type} (g : GridAdapter Coord Cell)
    (cfg : SyllableConfig) (pinv : Nat → Nat) (chars : List Char) : Option Coord :=
  match charsToInt cfg chars with
  | none => none
  | some n =>
    some (g.decode (g.compose (pinv (n / seven15), intToDigits 7 15 (n % seven15))))

/-- Modelled from the spec: the arithmetic core of a partial-estimation
result (§4.7): parsed digit vector, integer interval `[N_lo, N_hi]`
intersected with the valid range, and completeness level `P`. -/
structure LocationEstimate where
  digits : List Nat
  nLo : Nat
  nHi : Nat
  completeness : Nat
deriving DecidableEq, Repr

/-- Modelled from the spec: the partial estimator's input validation and
interval computation (§4.7): an empty prefix, an unknown syllable, and a
prefix of `P ≥ L` syllables are errors; otherwise the prefix denotes the
most significant `P` digits, giving `N_lo = Σ s_j * A^(L-1-j)` and
`N_hi = N_lo + A^(L-P) - 1` intersected with `[0, 122 * 7^15)`. -/
def estimateLocation (cfg : SyllableConfig) (chars : List Char) :
    Except (List Char) LocationEstimate :=
  if chars = [] then .error ['e', 'm', 'p', 't', 'y']
  else
    match parseSyllables cfg chars with
    | none => .error ['u', 'n', 'k', 'n', 'o', 'w', 'n']
    | some ds =>
      if cfg.addressLength ≤ ds.length then .error ['t', 'o', 'o', '-', 'l', 'o', 'n', 'g']
      else
        let w := totalSyllables cfg ^ (cfg.addressLength - ds.length)
        let nLo := digitsMSVal (totalSyllables cfg) ds * w
        .ok
          { digits := ds
            nLo := nLo
            nHi := min (nLo + w - 1) (h3Target - 1)
            completeness := ds.length }

/-- Little-endian value of a digit list, `Σ ds[i] * b^i`; the semantic
anchor for the digit conversions. -/
def digitsLEVal (b : Nat) : List Nat → Nat
  | [] => 0
  | d :: ds => d + b * digitsLEVal b ds

/-- Value of a base-26 letter string (digits a..z, most significant
first); the semantic anchor for the identifier rendering. -/
def base26Val (chars : List Char) : Nat :=
  digitsMSVal 26 (chars.map (fun c => c.toNat - 97))

/-- Modelled from the spec: the configuration invariants of §3 — distinct
sorted letter lists, at least one consonant and one vowel, lowercase
letters, and a syllable space covering the H3 target. -/
abbrev ValidConfig (cfg : SyllableConfig) : Prop :=
  cfg.consonants.Nodup ∧ cfg.vowels.Nodup ∧
  0 < cfg.consonants.length ∧ 0 < cfg.vowels.length ∧
  h3Target ≤ totalSyllables cfg ^ cfg.addressLength ∧
  ∀ c ∈ cfg.consonants ++ cfg.vowels, 'a' ≤ c ∧ c ≤ 'z'

/-- The address surface shape of §6: characters at even positions are
consonants of the configuration, characters at odd positions vowels. -/
def AlternatesCV (cfg : SyllableConfig) (chars : List Char) : Prop :=
  ∀ (j : Nat) (h : j < chars.length),
    chars.get ⟨j, h⟩ ∈ (if j % 2 = 0 then cfg.consonants else cfg.vowels)

/-- The example configuration of §8 (alphabet `ascii`, 15 consonants,
5 vowels, `A = 75`, `L = 8`), used by the concrete witnesses. -/
def cfgW : SyllableConfig :=
  { consonants := ['d', 'f', 'h', 'j', 'k', 'l', 'm', 'n', 'p', 'r', 's', 't', 'v', 'w', 'z']
    vowels := ['a', 'e', 'i', 'o', 'u']
    addressLength := 8 }

/-- A concrete grid adapter for the witnesses: coordinates and cells are
both the cell integers themselves. -/
def gridW : GridAdapter (Fin h3Target) (Fin h3Target) :=
  { encode := fun c => c
    decode := fun c => c
    hierarchy := fun c => (c.1 / seven15, intToDigits 7 15 (c.1 % seven15))
    compose := fun t => ⟨(t.1 * seven15 + digitsMSVal 7 t.2) % h3Target,
      Nat.mod_lt _ (by decide)⟩
    dist := fun _ _ => 0
    circumradius := 0 }

/-- A line graph on the naturals, a concrete adjacency structure for the
Hamiltonian-ordering witnesses. -/
def lineGraph : Nat → List Nat := fun n => [n - 1, n + 1]

/-- A concrete coordinate for the witnesses. -/
def coordW : Fin h3Target := ⟨0, by decide⟩

/-! ## Digit arithmetic lemmas -/

theorem length_intToDigitsLE (b : Nat) : ∀ (len n : Nat), (intToDigitsLE b len n).length = len
  | 0, _ => rfl
  | len + 1, n => by simp [intToDigitsLE, length_intToDigitsLE b len]

theorem mem_intToDigitsLE_lt (b : Nat) (hb : 0 < b) :
    ∀ (len n : Nat), ∀ d ∈ intToDigitsLE b len n, d < b
  | 0, _ => by simp [intToDigitsLE]
  | len + 1, n => by
    intro d hd
    simp only [intToDigitsLE, List.mem_cons] at hd
    rcases hd with h | h
    · exact h ▸ Nat.mod_lt _ hb
    · exact mem_intToDigitsLE_lt b hb len (n / b) d h

theorem digitsLEVal_append_single (b : Nat) (d : Nat) :
    ∀ xs : List Nat, digitsLEVal b (xs ++ [d]) = digitsLEVal b xs + d * b ^ xs.length
  | [] => by simp [digitsLEVal]
  | x :: xs => by
    simp [digitsLEVal, digitsLEVal_append_single b d xs]
    ring

theorem foldl_mul_add (b : Nat) :
    ∀ (ds : List Nat) (a : Nat),
      ds.foldl (fun acc d => acc * b + d) a = a * b ^ ds.length + digitsLEVal b ds.reverse
  | [], a => by simp [digitsLEVal]
  | d :: ds, a => by
    simp only [List.foldl_cons, foldl_mul_add b ds (a * b + d), List.reverse_cons,
      digitsLEVal_append_single, List.length_reverse, List.length_cons]
    ring

theorem digitsMSVal_eq (b : Nat) (ds : List Nat) :
    digitsMSVal b ds = digitsLEVal b ds.reverse := by
  simpa using foldl_mul_add b ds 0

theorem digitsLEVal_intToDigitsLE (b : Nat) :
    ∀ (len n : Nat), n < b ^ len → digitsLEVal b (intToDigitsLE b len n) = n
  | 0, n, h => by
    have hn : n = 0 := by simpa [Nat.lt_one_iff] using h
    subst hn
    rfl
  | len + 1, n, h => by
    have hb : 0 < b := by
      rcases Nat.eq_zero_or_pos b with h0 | h0
      · subst h0; simp at h
      · exact h0
    have hdiv : n / b < b ^ len := by
      rw [Nat.div_lt_iff_lt_mul hb]
      calc n < b ^ (len + 1) := h
        _ = b ^ len * b := by ring
    simp only [intToDigitsLE, digitsLEVal, digitsLEVal_intToDigitsLE b len (n / b) hdiv]
    exact Nat.mod_add_div n b

theorem intToDigitsLE_digitsLEVal (b : Nat) :
    ∀ ds : List Nat, (∀ d ∈ ds, d < b) → intToDigitsLE b ds.length (digitsLEVal b ds) = ds
  | [], _ => rfl
  | d :: ds, h => by
    have hd : d < b := h d (List.mem_cons_self d ds)
    have hb : 0 < b := Nat.lt_of_le_of_lt (Nat.zero_le d) hd
    have hmod : (d + b * digitsLEVal b ds) % b = d := by
      rw [Nat.add_mul_mod_self_left]
      exact Nat.mod_eq_of_lt hd
    have hdiv : (d + b * digitsLEVal b ds) / b = digitsLEVal b ds := by
      rw [Nat.add_mul_div_left _ _ hb, Nat.div_eq_of_lt hd]
      omega
    simp only [List.length_cons, intToDigitsLE, digitsLEVal, hmod, hdiv,
      intToDigitsLE_digitsLEVal b ds (fun x hx => h x (List.mem_cons_of_mem d hx))]

theorem digitsLEVal_lt (b : Nat) :
    ∀ ds : List Nat, (∀ d ∈ ds, d < b) → digitsLEVal b ds < b ^ ds.length
  | [], _ => by simp [digitsLEVal]
  | d :: ds, h => by
    have hd : d < b := h d (List.mem_cons_self d ds)
    have ih := digitsLEVal_lt b ds (fun x hx => h x (List.mem_cons_of_mem d hx))
    have hstep : b * (digitsLEVal b ds + 1) ≤ b * b ^ ds.length :=
      Nat.mul_le_mul_left b (Nat.succ_le_of_lt ih)
    simp only [digitsLEVal, List.length_cons]
    calc d + b * digitsLEVal b ds < b * (digitsLEVal b ds + 1) := by
          have := hd
          nlinarith
      _ ≤ b * b ^ ds.length := hstep
      _ = b ^ (ds.length + 1) := by ring

theorem length_intToDigits (b len n : Nat) : (intToDigits b len n).length = len := by
  simp [intToDigits, length_intToDigitsLE]

theorem mem_intToDigits_lt (b : Nat) (hb : 0 < b) (len n : Nat) :
    ∀ d ∈ intToDigits b len n, d < b := by
  intro d hd
  rw [intToDigits, List.mem_reverse] at hd
  exact mem_intToDigitsLE_lt b hb len n d hd

theorem digitsMSVal_intToDigits (b len n : Nat) (h : n < b ^ len) :
    digitsMSVal b (intToDigits b len n) = n := by
  rw [digitsMSVal_eq, intToDigits, List.reverse_reverse]
  exact digitsLEVal_intToDigitsLE b len n h

theorem digitsMSVal_lt (b : Nat) (ds : List Nat) (h : ∀ d ∈ ds, d < b) :
    digitsMSVal b ds < b ^ ds.length := by
  rw [digitsMSVal_eq]
  have := digitsLEVal_lt b ds.reverse (fun d hd => h d (List.mem_reverse.mp hd))
  simpa using this

theorem intToDigits_digitsMSVal (b len : Nat) (ds : List Nat) (hlen : ds.length = len)
    (h : ∀ d ∈ ds, d < b) : intToDigits b len (digitsMSVal b ds) = ds := by
  rw [digitsMSVal_eq, intToDigits]
  have hrevlen : ds.reverse.length = len := by simpa using hlen
  have hrevmem : ∀ d ∈ ds.reverse, d < b := fun d hd => h d (List.mem_reverse.mp hd)
  rw [← hrevlen, intToDigitsLE_digitsLEVal b ds.reverse hrevmem, List.reverse_reverse]

/-! ## Letter-lookup lemmas -/

theorem idxOf?_some (x : Char) :
    ∀ l : List Char, ∀ i : Nat, idxOf? x l = some i →
      ∃ h : i < l.length, l.get ⟨i, h⟩ = x
  | [], i => by simp [idxOf?]
  | y :: ys, i => by
    intro h
    by_cases hyx : y = x
    · simp [idxOf?, hyx] at h
      subst h
      exact ⟨Nat.succ_pos _, hyx⟩
    · simp only [idxOf?, if_neg hyx] at h
      match hi : idxOf? x ys with
      | none => rw [hi] at h; simp at h
      | some j =>
        rw [hi] at h
        simp at h
        subst h
        obtain ⟨hj, hget⟩ := idxOf?_some x ys j hi
        exact ⟨Nat.succ_lt_succ hj, by simpa using hget⟩

theorem idxOf?_get (l : List Char) (hnd : l.Nodup) :
    ∀ (i : Nat) (h : i < l.length), idxOf? (l.get ⟨i, h⟩) l = some i := by
  induction l with
  | nil => intro i h; simp at h
  | cons y ys ih =>
    intro i h
    match i with
    | 0 => simp [idxOf?]
    | j + 1 =>
      have hj : j < ys.length := Nat.lt_of_succ_lt_succ h
      have hget : (y :: ys).get ⟨j + 1, h⟩ = ys.get ⟨j, hj⟩ := rfl
      have hy : y ≠ ys.get ⟨j, hj⟩ := by
        intro hc
        exact (List.nodup_cons.mp hnd).1 (hc ▸ List.get_mem ys j hj)
      rw [hget, idxOf?, if_neg hy, ih (List.nodup_cons.mp hnd).2 j hj]
      rfl

/-! ## Syllable parse and print lemmas -/

theorem idxOf?_of_mem (x : Char) :
    ∀ l : List Char, x ∈ l → ∃ i, idxOf? x l = some i
  | [], h => by simp at h
  | y :: ys, h => by
    by_cases hyx : y = x
    · exact ⟨0, by simp [idxOf?, hyx]⟩
    · have hmem : x ∈ ys := by
        rcases List.mem_cons.mp h with h1 | h1
        · exact absurd h1.symm hyx
        · exact h1
      obtain ⟨i, hi⟩ := idxOf?_of_mem x ys hmem
      exact ⟨i + 1, by simp [idxOf?, hyx, hi]⟩

theorem digitChars_eq (cfg : SyllableConfig) (ci vi : Nat)
    (hci : ci < cfg.consonants.length) (hvi : vi < cfg.vowels.length) :
    digitChars cfg (ci * cfg.vowels.length + vi) =
      [cfg.consonants.get ⟨ci, hci⟩, cfg.vowels.get ⟨vi, hvi⟩] := by
  have hV : 0 < cfg.vowels.length := Nat.lt_of_le_of_lt (Nat.zero_le vi) hvi
  have hcomm : ci * cfg.vowels.length + vi = vi + cfg.vowels.length * ci := by ring
  have hdiv : (ci * cfg.vowels.length + vi) / cfg.vowels.length = ci := by
    rw [hcomm, Nat.add_mul_div_left _ _ hV, Nat.div_eq_of_lt hvi]
    omega
  have hmod : (ci * cfg.vowels.length + vi) % cfg.vowels.length = vi := by
    rw [hcomm, Nat.add_mul_mod_self_left]
    exact Nat.mod_eq_of_lt hvi
  simp only [digitChars, hdiv, hmod, List.get_eq_getElem, List.getD_eq_getElem?_getD,
    List.getElem?_eq_getElem hci, List.getElem?_eq_getElem hvi, Option.getD_some]

theorem parseSyllables_some (cfg : SyllableConfig) :
    ∀ (chars : List Char) (ds : List Nat), parseSyllables cfg chars = some ds →
      chars.length = 2 * ds.length ∧ (∀ d ∈ ds, d < totalSyllables cfg) ∧
      (ds.map (digitChars cfg)).flatten = chars
  | [], ds => by
    intro h
    simp [parseSyllables] at h
    subst h
    simp
  | [c], ds => by
    intro h
    simp [parseSyllables] at h
  | c :: v :: rest, ds => by
    intro h
    rw [parseSyllables] at h
    match hci : idxOf? c cfg.consonants, hvi : idxOf? v cfg.vowels,
        hr : parseSyllables cfg rest with
    | none, _, _ => rw [hci] at h; simp at h
    | some ci, none, _ => rw [hci, hvi] at h; simp at h
    | some ci, some vi, none => rw [hci, hvi, hr] at h; simp at h
    | some ci, some vi, some ds2 =>
      rw [hci, hvi, hr] at h
      simp only [Option.some.injEq] at h
      subst h
      obtain ⟨hciL, hcget⟩ := idxOf?_some c cfg.consonants ci hci
      obtain ⟨hviL, hvget⟩ := idxOf?_some v cfg.vowels vi hvi
      obtain ⟨ihlen, ihlt, ihflat⟩ := parseSyllables_some cfg rest ds2 hr
      refine ⟨by simp [ihlen]; omega, ?_, ?_⟩
      · intro d hd
        rcases List.mem_cons.mp hd with h1 | h1
        · subst h1
          calc ci * cfg.vowels.length + vi < ci * cfg.vowels.length + cfg.vowels.length := by
                omega
            _ = (ci + 1) * cfg.vowels.length := by ring
            _ ≤ cfg.consonants.length * cfg.vowels.length :=
                Nat.mul_le_mul_right _ (Nat.succ_le_of_lt hciL)
            _ = totalSyllables cfg := rfl
        · exact ihlt d h1
      · simp only [List.map_cons, List.flatten_cons, digitChars_eq cfg ci vi hciL hviL,
          hcget, hvget, ihflat]
        rfl

theorem parseSyllables_flatten (cfg : SyllableConfig) (hndC : cfg.consonants.Nodup)
    (hndV : cfg.vowels.Nodup) (hV : 0 < cfg.vowels.length) :
    ∀ ds : List Nat, (∀ d ∈ ds, d < totalSyllables cfg) →
      parseSyllables cfg ((ds.map (digitChars cfg)).flatten) = some ds
  | [], _ => rfl
  | d :: ds, h => by
    have hd : d < totalSyllables cfg := h d (List.mem_cons_self d ds)
    have hdiv : d / cfg.vowels.length < cfg.consonants.length := by
      rw [Nat.div_lt_iff_lt_mul hV]
      calc d < totalSyllables cfg := hd
        _ = cfg.consonants.length * cfg.vowels.length := rfl
    have hmod : d % cfg.vowels.length < cfg.vowels.length := Nat.mod_lt _ hV
    have hsplit : d / cfg.vowels.length * cfg.vowels.length + d % cfg.vowels.length = d := by
      rw [Nat.mul_comm]
      exact Nat.div_add_mod d cfg.vowels.length
    have hd2 : digitChars cfg d =
        [cfg.consonants.get ⟨d / cfg.vowels.length, hdiv⟩,
         cfg.vowels.get ⟨d % cfg.vowels.length, hmod⟩] := by
      conv in digitChars cfg d => rw [← hsplit]
      exact digitChars_eq cfg _ _ hdiv hmod
    have ih := parseSyllables_flatten cfg hndC hndV hV ds
      (fun x hx => h x (List.mem_cons_of_mem d hx))
    simp only [List.map_cons, List.flatten_cons]
    rw [hd2]
    simp only [List.cons_append, List.nil_append, parseSyllables]
    rw [idxOf?_get cfg.consonants hndC _ hdiv, idxOf?_get cfg.vowels hndV _ hmod]
    simp [List.append_eq, ih, hsplit]

theorem length_flatten_pairs (cfg : SyllableConfig) :
    ∀ ds : List Nat, ((ds.map (digitChars cfg)).flatten).length = 2 * ds.length
  | [] => rfl
  | d :: ds => by
    simp only [List.map_cons, List.flatten_cons, List.length_append,
      length_flatten_pairs cfg ds, digitChars, List.length_cons, List.length_nil,
      List.length_singleton]
    omega

theorem length_intToChars (cfg : SyllableConfig) (n : Nat) :
    (intToChars cfg n).length = 2 * cfg.addressLength := by
  rw [intToChars, length_flatten_pairs, length_intToDigits]

theorem totalSyllables_pos (cfg : SyllableConfig) (hC : 0 < cfg.consonants.length)
    (hV : 0 < cfg.vowels.length) : 0 < totalSyllables cfg :=
  Nat.mul_pos hC hV

theorem charsToInt_intToChars (cfg : SyllableConfig) (hv : ValidConfig cfg)
    (n : Nat) (hn : n < h3Target) : charsToInt cfg (intToChars cfg n) = some n := by
  obtain ⟨hndC, hndV, hC, hV, hcov, _⟩ := hv
  have hA : 0 < totalSyllables cfg := totalSyllables_pos cfg hC hV
  have hnA : n < totalSyllables cfg ^ cfg.addressLength := Nat.lt_of_lt_of_le hn hcov
  have hmem := mem_intToDigits_lt (totalSyllables cfg) hA cfg.addressLength n
  rw [charsToInt, if_pos (length_intToChars cfg n), intToChars,
    parseSyllables_flatten cfg hndC hndV hV _ hmem]
  dsimp only
  rw [digitsMSVal_intToDigits _ _ _ hnA, if_pos hn]

theorem intToChars_charsToInt (cfg : SyllableConfig) (chars : List Char) (n : Nat)
    (h : charsToInt cfg chars = some n) : intToChars cfg n = chars ∧ n < h3Target := by
  rw [charsToInt] at h
  by_cases hlen : chars.length = 2 * cfg.addressLength
  · rw [if_pos hlen] at h
    match hp : parseSyllables cfg chars with
    | none => rw [hp] at h; simp at h
    | some ds =>
      rw [hp] at h
      dsimp only at h
      by_cases hrange : digitsMSVal (totalSyllables cfg) ds < h3Target
      · rw [if_pos hrange] at h
        simp only [Option.some.injEq] at h
        subst h
        obtain ⟨hlen2, hlt, hflat⟩ := parseSyllables_some cfg chars ds hp
        have hdsL : ds.length = cfg.addressLength := by omega
        refine ⟨?_, hrange⟩
        rw [intToChars, intToDigits_digitsMSVal _ _ ds hdsL hlt, hflat]
      · rw [if_neg hrange] at h
        simp at h
  · rw [if_neg hlen] at h
    simp at h

theorem digitChars_split (cfg : SyllableConfig) (d : Nat) (hV : 0 < cfg.vowels.length)
    (hd : d < totalSyllables cfg) :
    ∃ (h1 : d / cfg.vowels.length < cfg.consonants.length)
      (h2 : d % cfg.vowels.length < cfg.vowels.length),
      digitChars cfg d =
        [cfg.consonants.get ⟨d / cfg.vowels.length, h1⟩,
         cfg.vowels.get ⟨d % cfg.vowels.length, h2⟩] := by
  have hdiv : d / cfg.vowels.length < cfg.consonants.length := by
    rw [Nat.div_lt_iff_lt_mul hV]
    exact hd
  have hmod : d % cfg.vowels.length < cfg.vowels.length := Nat.mod_lt _ hV
  have hsplit : d / cfg.vowels.length * cfg.vowels.length + d % cfg.vowels.length = d := by
    rw [Nat.mul_comm]
    exact Nat.div_add_mod d cfg.vowels.length
  refine ⟨hdiv, hmod, ?_⟩
  conv in digitChars cfg d => rw [← hsplit]
  exact digitChars_eq cfg _ _ hdiv hmod

theorem alternates_flatten (cfg : SyllableConfig) (hV : 0 < cfg.vowels.length) :
    ∀ ds : List Nat, (∀ d ∈ ds, d < totalSyllables cfg) →
      AlternatesCV cfg ((ds.map (digitChars cfg)).flatten)
  | [], _ => by intro j h; simp at h
  | d :: ds, h => by
    have hd : d < totalSyllables cfg := h d (List.mem_cons_self d ds)
    obtain ⟨h1, h2, hd2⟩ := digitChars_split cfg d hV hd
    have ih := alternates_flatten cfg hV ds (fun x hx => h x (List.mem_cons_of_mem d hx))
    intro j hj
    rw [List.get_eq_getElem]
    simp only [List.map_cons, List.flatten_cons, hd2, List.cons_append, List.nil_append] at hj ⊢
    match j with
    | 0 => simpa using List.get_mem cfg.consonants _ h1
    | 1 => simpa using List.get_mem cfg.vowels _ h2
    | j + 2 =>
      have hjlen : j < ((ds.map (digitChars cfg)).flatten).length := by
        simp only [List.length_cons] at hj
        omega
      have hmod2 : (j + 2) % 2 = j % 2 := Nat.add_mod_right j 2
      have hih := ih j hjlen
      simp only [List.getElem_cons_succ, hmod2]
      simpa using hih

theorem parse_of_alternates (cfg : SyllableConfig) :
    ∀ (m : Nat) (chars : List Char), chars.length = 2 * m → AlternatesCV cfg chars →
      ∃ ds, parseSyllables cfg chars = some ds ∧ ds.length = m
  | 0, chars => by
    intro hlen _
    have : chars = [] := List.eq_nil_of_length_eq_zero (by omega)
    subst this
    exact ⟨[], rfl, rfl⟩
  | m + 1, chars => by
    intro hlen hAlt
    match chars with
    | [] => simp at hlen
    | [c] => simp at hlen; omega
    | c :: v :: rest =>
      have hrestlen : rest.length = 2 * m := by simp at hlen; omega
      have hc : c ∈ cfg.consonants := by
        have := hAlt 0 (by simp)
        simpa using this
      have hv : v ∈ cfg.vowels := by
        have := hAlt 1 (by simp)
        simpa using this
      have hAltRest : AlternatesCV cfg rest := by
        intro j hj
        have hj2 : j + 2 < (c :: v :: rest).length := by simp; omega
        have := hAlt (j + 2) hj2
        have hmod2 : (j + 2) % 2 = j % 2 := Nat.add_mod_right j 2
        simp only [List.get_eq_getElem, List.getElem_cons_succ, hmod2] at this
        simpa using this
      obtain ⟨ci, hci⟩ := idxOf?_of_mem c cfg.consonants hc
      obtain ⟨vi, hvi⟩ := idxOf?_of_mem v cfg.vowels hv
      obtain ⟨ds, hds, hdsl⟩ := parse_of_alternates cfg m rest hrestlen hAltRest
      refine ⟨(ci * cfg.vowels.length + vi) :: ds, ?_, by simp [hdsl]⟩
      rw [parseSyllables, hci, hvi, hds]

/-! ## Cell integer lemmas -/

theorem seven15_pos : 0 < seven15 := by
  rw [seven15]
  positivity

theorem h3Target_eq : h3Target = 122 * seven15 := rfl

theorem cellInt_div (b r : Nat) (hr : r < seven15) : (b * seven15 + r) / seven15 = b := by
  have h : b * seven15 + r = r + seven15 * b := by ring
  rw [h, Nat.add_mul_div_left _ _ seven15_pos, Nat.div_eq_of_lt hr]
  omega

theorem cellInt_mod (b r : Nat) (hr : r < seven15) : (b * seven15 + r) % seven15 = r := by
  have h : b * seven15 + r = r + seven15 * b := by ring
  rw [h, Nat.add_mul_mod_self_left]
  exact Nat.mod_eq_of_lt hr

theorem cellInt_lt (b r : Nat) (hb : b < 122) (hr : r < seven15) :
    b * seven15 + r < h3Target := by
  rw [h3Target_eq]
  calc b * seven15 + r < b * seven15 + seven15 := by omega
    _ = (b + 1) * seven15 := by ring
    _ ≤ 122 * seven15 := Nat.mul_le_mul_right _ (Nat.succ_le_of_lt hb)

theorem digitsMSVal7_lt (ds : List Nat) (hlen : ds.length = 15) (h : ∀ d ∈ ds, d < 7) :
    digitsMSVal 7 ds < seven15 := by
  have := digitsMSVal_lt 7 ds h
  rw [hlen] at this
  exact this

theorem gridW_hierarchyValid (c : Fin h3Target) : ValidTuple (gridW.hierarchy c) := by
  refine ⟨?_, ?_, ?_⟩
  · show c.1 / seven15 < 122
    rw [Nat.div_lt_iff_lt_mul seven15_pos]
    have h2 := c.2
    calc c.1 < h3Target := h2
      _ = 122 * seven15 := h3Target_eq
  · exact length_intToDigits 7 15 _
  · exact mem_intToDigits_lt 7 (by norm_num) 15 _

theorem gridW_composeHierarchy (c : Fin h3Target) : gridW.compose (gridW.hierarchy c) = c := by
  apply Fin.ext
  show (c.1 / seven15 * seven15 +
    digitsMSVal 7 (intToDigits 7 15 (c.1 % seven15))) % h3Target = c.1
  have hmod : c.1 % seven15 < 7 ^ 15 := Nat.mod_lt _ seven15_pos
  rw [digitsMSVal_intToDigits 7 15 _ hmod]
  have hsplit : c.1 / seven15 * seven15 + c.1 % seven15 = c.1 := by
    rw [Nat.mul_comm]
    exact Nat.div_add_mod c.1 seven15
  rw [hsplit]
  exact Nat.mod_eq_of_lt c.2

theorem gridW_hierarchyCompose (t : Nat × List Nat) (ht : ValidTuple t) :
    gridW.hierarchy (gridW.compose t) = t := by
  obtain ⟨hb, hlen, hdig⟩ := ht
  have hr : digitsMSVal 7 t.2 < seven15 := digitsMSVal7_lt t.2 hlen hdig
  have hlt : t.1 * seven15 + digitsMSVal 7 t.2 < h3Target := cellInt_lt _ _ hb hr
  show ((t.1 * seven15 + digitsMSVal 7 t.2) % h3Target / seven15,
    intToDigits 7 15 ((t.1 * seven15 + digitsMSVal 7 t.2) % h3Target % seven15)) = t
  rw [Nat.mod_eq_of_lt hlt, cellInt_div _ _ hr, cellInt_mod _ _ hr,
    intToDigits_digitsMSVal 7 15 t.2 hlen hdig]

theorem gridW_encodeDecode (c : Fin h3Target) : gridW.encode (gridW.decode c) = c := rfl

theorem gridW_distCenter (co : Fin h3Target) :
    gridW.dist co (gridW.decode (gridW.encode co)) ≤ gridW.circumradius := le_refl 0

/-! ## Claims C1 and C4: the two round trips -/

/-- C1: for every in-range syllable address (a well-formed address whose
decoded integer is below `122 * 7^15`), decoding to a coordinate with
`syllable_to_coordinate` and re-encoding that coordinate with
`coordinate_to_syllable` yields the identical address. -/
theorem syllable_coordinate_roundtrip {Coord Cell : Type} (g : GridAdapter Coord Cell)
    (cfg : SyllableConfig) (perm pinv : Nat → Nat)
    (hperm : ∀ b, b < 122 → pinv b < 122 ∧ perm (pinv b) = b)
    (hHC : ∀ t, ValidTuple t → g.hierarchy (g.compose t) = t)
    (hED : ∀ c, g.encode (g.decode c) = c)
    (chars : List Char) (co : Coord)
    (h : syllableToCoordinate g cfg pinv chars = some co) :
    coordinateToSyllable g cfg perm co = chars := by
  rw [syllableToCoordinate] at h
  match hn : charsToInt cfg chars with
  | none => rw [hn] at h; simp at h
  | some n =>
    rw [hn] at h
    dsimp only at h
    simp only [Option.some.injEq] at h
    obtain ⟨hchars, hnT⟩ := intToChars_charsToInt cfg chars n hn
    have hb : n / seven15 < 122 := by
      rw [Nat.div_lt_iff_lt_mul seven15_pos]
      calc n < h3Target := hnT
        _ = 122 * seven15 := h3Target_eq
    obtain ⟨hpinvb, hpp⟩ := hperm _ hb
    have ht : ValidTuple (pinv (n / seven15), intToDigits 7 15 (n % seven15)) :=
      ⟨hpinvb, length_intToDigits 7 15 _, mem_intToDigits_lt 7 (by norm_num) 15 _⟩
    rw [coordinateToSyllable, ← h, hED, hHC _ ht]
    show intToChars cfg
      (perm (pinv (n / seven15)) * seven15 +
        digitsMSVal 7 (intToDigits 7 15 (n % seven15))) = chars
    have hmod : n % seven15 < 7 ^ 15 := Nat.mod_lt _ seven15_pos
    rw [hpp, digitsMSVal_intToDigits 7 15 _ hmod]
    have hsplit : n / seven15 * seven15 + n % seven15 = n := by
      rw [Nat.mul_comm]
      exact Nat.div_add_mod n seven15
    rw [hsplit]
    exact hchars

/-- Witness for C1 at the configuration of §8, the identity permutation and
the concrete grid adapter: the all-zero address decodes and re-encodes to
itself. -/
theorem syllable_coordinate_roundtrip_witness :
    coordinateToSyllable gridW cfgW (fun b => b)
        (gridW.decode (gridW.compose (0, intToDigits 7 15 0))) =
      ['d', 'a', 'd', 'a', 'd', 'a', 'd', 'a', 'd', 'a', 'd', 'a', 'd', 'a', 'd', 'a'] :=
  syllable_coordinate_roundtrip gridW cfgW (fun b => b) (fun b => b)
    (fun _ hb => ⟨hb, rfl⟩) gridW_hierarchyCompose gridW_encodeDecode
    ['d', 'a', 'd', 'a', 'd', 'a', 'd', 'a', 'd', 'a', 'd', 'a', 'd', 'a', 'd', 'a']
    (gridW.decode (gridW.compose (0, intToDigits 7 15 0))) (by decide)

/-- C4: for every valid coordinate, encoding with `coordinate_to_syllable`
and decoding with `syllable_to_coordinate` returns exactly the canonical
center of the resolution-15 cell of the input; re-encoding that center
yields the same cell, and by the adapter's circumradius guarantee the
ground distance between input and output is at most the cell's
circumradius. -/
theorem coordinate_roundtrip_same_cell {Coord Cell : Type} (g : GridAdapter Coord Cell)
    (cfg : SyllableConfig) (hv : ValidConfig cfg) (perm pinv : Nat → Nat)
    (hperm : ∀ b, b < 122 → perm b < 122 ∧ pinv (perm b) = b)
    (hHV : ∀ c, ValidTuple (g.hierarchy c))
    (hCH : ∀ c, g.compose (g.hierarchy c) = c)
    (hED : ∀ c, g.encode (g.decode c) = c)
    (hDC : ∀ p, g.dist p (g.decode (g.encode p)) ≤ g.circumradius)
    (co : Coord) :
    syllableToCoordinate g cfg pinv (coordinateToSyllable g cfg perm co) =
        some (g.decode (g.encode co)) ∧
      g.encode (g.decode (g.encode co)) = g.encode co ∧
      g.dist co (g.decode (g.encode co)) ≤ g.circumradius := by
  obtain ⟨hb, hlen, hdig⟩ := hHV (g.encode co)
  obtain ⟨hpb, hpp⟩ := hperm _ hb
  have hr : digitsMSVal 7 (g.hierarchy (g.encode co)).2 < seven15 :=
    digitsMSVal7_lt _ hlen hdig
  have hnT : perm (g.hierarchy (g.encode co)).1 * seven15 +
      digitsMSVal 7 (g.hierarchy (g.encode co)).2 < h3Target :=
    cellInt_lt _ _ hpb hr
  refine ⟨?_, hED (g.encode co), hDC co⟩
  rw [coordinateToSyllable, syllableToCoordinate, charsToInt_intToChars cfg hv _ hnT]
  dsimp only
  rw [cellInt_div _ _ hr, cellInt_mod _ _ hr, hpp,
    intToDigits_digitsMSVal 7 15 _ hlen hdig, Prod.mk.eta, hCH (g.encode co)]

/-- Witness for C4 at the configuration of §8, the identity permutation,
the concrete grid adapter and the coordinate of cell integer 0. -/
theorem coordinate_roundtrip_same_cell_witness :
    syllableToCoordinate gridW cfgW (fun b => b)
        (coordinateToSyllable gridW cfgW (fun b => b) coordW) =
        some (gridW.decode (gridW.encode coordW)) ∧
      gridW.encode (gridW.decode (gridW.encode coordW)) = gridW.encode coordW ∧
      gridW.dist coordW (gridW.decode (gridW.encode coordW)) ≤ gridW.circumradius :=
  coordinate_roundtrip_same_cell gridW cfgW (by decide) (fun b => b) (fun b => b)
    (fun _ hb => ⟨hb, rfl⟩) gridW_hierarchyValid gridW_composeHierarchy
    gridW_encodeDecode gridW_distCenter coordW

/-! ## Claim C6: the address surface -/

theorem charsToInt_some (cfg : SyllableConfig) (chars : List Char) (n : Nat)
    (h : charsToInt cfg chars = some n) :
    chars.length = 2 * cfg.addressLength ∧
      ∃ ds, parseSyllables cfg chars = some ds ∧
        digitsMSVal (totalSyllables cfg) ds = n ∧ n < h3Target := by
  rw [charsToInt] at h
  by_cases hlen : chars.length = 2 * cfg.addressLength
  · rw [if_pos hlen] at h
    match hp : parseSyllables cfg chars with
    | none => rw [hp] at h; simp at h
    | some ds =>
      rw [hp] at h
      dsimp only at h
      by_cases hrange : digitsMSVal (totalSyllables cfg) ds < h3Target
      · rw [if_pos hrange] at h
        simp only [Option.some.injEq] at h
        exact ⟨hlen, ds, rfl, h, h ▸ hrange⟩
      · rw [if_neg hrange] at h
        simp at h
  · rw [if_neg hlen] at h
    simp at h

theorem mem_intToChars (cfg : SyllableConfig) (hC : 0 < cfg.consonants.length)
    (hV : 0 < cfg.vowels.length) (n : Nat) :
    ∀ c ∈ intToChars cfg n, c ∈ cfg.consonants ∨ c ∈ cfg.vowels := by
  intro c hc
  rw [intToChars] at hc
  obtain ⟨l, hl, hcl⟩ := List.mem_flatten.mp hc
  obtain ⟨d, hd, hdl⟩ := List.mem_map.mp hl
  have hA : 0 < totalSyllables cfg := totalSyllables_pos cfg hC hV
  have hdlt : d < totalSyllables cfg :=
    mem_intToDigits_lt (totalSyllables cfg) hA cfg.addressLength n d hd
  obtain ⟨h1, h2, heq⟩ := digitChars_split cfg d hV hdlt
  subst hdl
  rw [heq] at hcl
  rcases List.mem_cons.mp hcl with h3 | h3
  · exact Or.inl (h3 ▸ List.get_mem _ _ _)
  · rcases List.mem_cons.mp h3 with h4 | h4
    · exact Or.inr (h4 ▸ List.get_mem _ _ _)
    · simp at h4

/-- C6: for every coordinate, the produced address is a lowercase string of
length exactly `2L` alternating configuration consonants and vowels, with
no separator characters; and the decoder accepts exactly the strings of
length `2L` over known alternating syllables whose decoded integer is in
range. -/
theorem address_surface {Coord Cell : Type} (g : GridAdapter Coord Cell)
    (cfg : SyllableConfig) (hv : ValidConfig cfg) (perm : Nat → Nat) (co : Coord) :
    (coordinateToSyllable g cfg perm co).length = 2 * cfg.addressLength ∧
      AlternatesCV cfg (coordinateToSyllable g cfg perm co) ∧
      (∀ c ∈ coordinateToSyllable g cfg perm co,
        'a' ≤ c ∧ c ≤ 'z' ∧ c ≠ '-' ∧ c ≠ '|') ∧
      ∀ chars : List Char,
        (∃ n, charsToInt cfg chars = some n) ↔
          chars.length = 2 * cfg.addressLength ∧ AlternatesCV cfg chars ∧
            ∃ ds, parseSyllables cfg chars = some ds ∧
              digitsMSVal (totalSyllables cfg) ds < h3Target := by
  obtain ⟨hndC, hndV, hC, hV, hcov, hlower⟩ := hv
  have hA : 0 < totalSyllables cfg := totalSyllables_pos cfg hC hV
  refine ⟨length_intToChars cfg _, ?_, ?_, ?_⟩
  · rw [coordinateToSyllable, intToChars]
    exact alternates_flatten cfg hV _ (mem_intToDigits_lt (totalSyllables cfg) hA _ _)
  · intro c hc
    have hmem : c ∈ cfg.consonants ∨ c ∈ cfg.vowels := mem_intToChars cfg hC hV _ c hc
    have hlz : 'a' ≤ c ∧ c ≤ 'z' := by
      rcases hmem with h1 | h1
      · exact hlower c (List.mem_append.mpr (Or.inl h1))
      · exact hlower c (List.mem_append.mpr (Or.inr h1))
    refine ⟨hlz.1, hlz.2, ?_, ?_⟩
    · intro hcontra
      subst hcontra
      exact absurd hlz.1 (by decide)
    · intro hcontra
      subst hcontra
      exact absurd hlz.2 (by decide)
  · intro chars
    constructor
    · rintro ⟨n, hn⟩
      obtain ⟨hlen, ds, hp, hval, hnT⟩ := charsToInt_some cfg chars n hn
      obtain ⟨_, hlt, hflat⟩ := parseSyllables_some cfg chars ds hp
      refine ⟨hlen, ?_, ds, hp, hval ▸ hnT⟩
      rw [← hflat]
      exact alternates_flatten cfg hV ds hlt
    · rintro ⟨hlen, _, ds, hp, hrange⟩
      refine ⟨digitsMSVal (totalSyllables cfg) ds, ?_⟩
      rw [charsToInt, if_pos hlen, hp]
      dsimp only
      rw [if_pos hrange]

/-- Witness for C6 at the configuration of §8, the identity permutation,
the concrete grid adapter and the coordinate of cell integer 0. -/
theorem address_surface_witness :
    (coordinateToSyllable gridW cfgW (fun b => b) coordW).length = 2 * cfgW.addressLength ∧
      AlternatesCV cfgW (coordinateToSyllable gridW cfgW (fun b => b) coordW) ∧
      (∀ c ∈ coordinateToSyllable gridW cfgW (fun b => b) coordW,
        'a' ≤ c ∧ c ≤ 'z' ∧ c ≠ '-' ∧ c ≠ '|') ∧
      ∀ chars : List Char,
        (∃ n, charsToInt cfgW chars = some n) ↔
          chars.length = 2 * cfgW.addressLength ∧ AlternatesCV cfgW chars ∧
            ∃ ds, parseSyllables cfgW chars = some ds ∧
              digitsMSVal (totalSyllables cfgW) ds < h3Target :=
  address_surface gridW cfgW (by decide) (fun b => b) coordW

/-! ## Claim C8: partial-estimator error conditions -/

/-- C8: the partial estimator succeeds exactly on the prefixes that are a
nonempty sequence of `m` known alternating syllables with `m < L`; the
empty prefix, a prefix with an unknown syllable, and a prefix of `m ≥ L`
syllables are exactly the error cases. -/
theorem estimate_error_conditions (cfg : SyllableConfig) (chars : List Char) :
    (∃ e, estimateLocation cfg chars = .ok e) ↔
      ∃ m, 1 ≤ m ∧ m < cfg.addressLength ∧ chars.length = 2 * m ∧
        AlternatesCV cfg chars := by
  constructor
  · rintro ⟨e, he⟩
    rw [estimateLocation] at he
    by_cases hempty : chars = []
    · rw [if_pos hempty] at he
      simp at he
    · rw [if_neg hempty] at he
      match hp : parseSyllables cfg chars with
      | none => rw [hp] at he; simp at he
      | some ds =>
        rw [hp] at he
        dsimp only at he
        by_cases hlong : cfg.addressLength ≤ ds.length
        · rw [if_pos hlong] at he
          simp at he
        · rw [if_neg hlong] at he
          obtain ⟨hlen, hlt, hflat⟩ := parseSyllables_some cfg chars ds hp
          have hm1 : 1 ≤ ds.length := by
            rcases Nat.eq_zero_or_pos ds.length with h0 | h0
            · exfalso
              apply hempty
              apply List.eq_nil_of_length_eq_zero
              omega
            · exact h0
          have hV : 0 < cfg.vowels.length := by
            match ds, hm1 with
            | d :: ds2, _ =>
              have hd := hlt d (List.mem_cons_self d ds2)
              have : 0 < totalSyllables cfg := Nat.lt_of_le_of_lt (Nat.zero_le d) hd
              rw [totalSyllables] at this
              exact Nat.pos_of_ne_zero (by intro h0; rw [h0, Nat.mul_zero] at this; omega)
          refine ⟨ds.length, hm1, by omega, hlen, ?_⟩
          rw [← hflat]
          exact alternates_flatten cfg hV ds hlt
  · rintro ⟨m, hm1, hmL, hlen, halt⟩
    obtain ⟨ds, hp, hdsl⟩ := parse_of_alternates cfg m chars hlen halt
    have hempty : chars ≠ [] := by
      intro hc
      subst hc
      simp at hlen
      omega
    have hok : estimateLocation cfg chars = .ok
        { digits := ds
          nLo := digitsMSVal (totalSyllables cfg) ds *
            totalSyllables cfg ^ (cfg.addressLength - ds.length)
          nHi := min (digitsMSVal (totalSyllables cfg) ds *
              totalSyllables cfg ^ (cfg.addressLength - ds.length) +
              totalSyllables cfg ^ (cfg.addressLength - ds.length) - 1) (h3Target - 1)
          completeness := ds.length } := by
      rw [estimateLocation, if_neg hempty, hp]
      dsimp only
      rw [if_neg (by omega)]
    exact ⟨_, hok⟩

/-! ## Claim C2: the generated address length -/

theorem find?_range'_first (p : Nat → Bool) :
    ∀ (n s L : Nat), (List.range' s n).find? p = some L →
      p L = true ∧ s ≤ L ∧ L < s + n ∧ ∀ m, s ≤ m → m < L → p m = false
  | 0, s, L => by simp
  | n + 1, s, L => by
    intro h
    rw [List.range'_succ] at h
    by_cases hps : p s = true
    · rw [List.find?_cons_of_pos _ hps] at h
      simp only [Option.some.injEq] at h
      subst h
      exact ⟨hps, Nat.le_refl _, by omega, fun m hm1 hm2 => by omega⟩
    · have hps2 : p s = false := by simpa using hps
      rw [List.find?_cons_of_neg _ (by simp [hps2])] at h
      obtain ⟨h1, h2, h3, h4⟩ := find?_range'_first p n (s + 1) L h
      refine ⟨h1, by omega, by omega, ?_⟩
      intro m hm1 hm2
      rcases Nat.eq_or_lt_of_le hm1 with heq | hlt
      · rw [← heq]
        exact hps2
      · exact h4 m hlt hm2

/-- C2 (amended): for every letter selection with at least one consonant
and one vowel, the address length produced by the generator is the first
(equivalently least) `L` in `1..19` whose constrained sequence count
`f(L)` — the adjacent-duplicate recurrence `f(1)=A`, `f(2)=A*(A-1)`,
`f(n)=(A-1)*(f(n-1)+f(n-2))` with `A = C*V` — reaches `122 * 7^15`; the
generator does not use the simple `A^L` convention. -/
theorem calculateMinSyllables_first_constrained (consonants vowels L : Nat)
    (h : calculateMinSyllablesNeeded consonants vowels = some L) :
    1 ≤ L ∧ L ≤ 19 ∧ h3Target ≤ constrainedSpace (consonants * vowels) L ∧
      ∀ m, 1 ≤ m → m < L → constrainedSpace (consonants * vowels) m < h3Target := by
  obtain ⟨h1, h2, h3, h4⟩ := find?_range'_first _ 19 1 L h
  refine ⟨h2, by omega, by simpa using h1, ?_⟩
  intro m hm1 hm2
  have := h4 m hm1 hm2
  simpa using this

/-- Witness for C2 (amended) at the selection of 15 consonants and
5 vowels from §8: the generator returns length 8, the constrained count
reaches the target at 8 and falls short at every shorter length. -/
theorem calculateMinSyllables_first_constrained_witness :
    1 ≤ 8 ∧ 8 ≤ 19 ∧ h3Target ≤ constrainedSpace (15 * 5) 8 ∧
      ∀ m, 1 ≤ m → m < 8 → constrainedSpace (15 * 5) m < h3Target :=
  calculateMinSyllables_first_constrained 15 5 8 (by decide)

/-- C2 counterexample: for the selection of consonants b,c,d,f,g,h and
vowels a,e,i,o,u (`A = 30`), the generator produces address length 11,
although the least `L` with `30^L ≥ 122 * 7^15` is 10 — so the produced
length is not the minimal length of the simple `A^L` convention. -/
theorem calculateMinSyllables_not_pow_minimal :
    (generateConfigFromLetters
        ['b', 'c', 'd', 'f', 'g', 'h', 'a', 'e', 'i', 'o', 'u']).toOption.map
        (fun c => (c.consonants.length, c.vowels.length, c.addressLength)) =
      some (6, 5, 11) ∧
    h3Target ≤ 30 ^ 10 ∧ 30 ^ 9 < h3Target ∧ (10 : Nat) ≠ 11 := by
  refine ⟨by decide, by decide, by decide, by decide⟩

/-! ## Claim C9: configuration-generation error conditions -/

/-- C9 (amended): configuration generation from a letter selection fails
exactly when the selection contains a letter outside the alphabet, lacks
a vowel, lacks a consonant, or no address length in `1..19` reaches the
H3 target under the generator's constrained-recurrence count (rather
than the simple `A^L` convention); otherwise a configuration is
returned. -/
theorem generateConfig_error_iff (letters : List Char) :
    (∃ e, generateConfigFromLetters letters = .error e) ↔
      ¬ (∀ l ∈ letters, l ∈ asciiChars) ∨
        letters.filter (fun l => isVowel l) = [] ∨
        letters.filter (fun l => ¬ isVowel l) = [] ∨
        ∀ L, 1 ≤ L → L ≤ 19 →
          constrainedSpace ((letters.filter (fun l => ¬ isVowel l)).length *
            (letters.filter (fun l => isVowel l)).length) L < h3Target := by
  rw [generateConfigFromLetters]
  by_cases hall : letters.all (fun l => l ∈ asciiChars) = true
  · rw [if_neg (not_not_intro hall)]
    dsimp only
    by_cases hvs : letters.filter (fun l => isVowel l) = []
    · rw [if_pos hvs]
      exact iff_of_true ⟨_, rfl⟩ (Or.inr (Or.inl hvs))
    · rw [if_neg hvs]
      by_cases hcs : letters.filter (fun l => ¬ isVowel l) = []
      · rw [if_pos hcs]
        exact iff_of_true ⟨_, rfl⟩ (Or.inr (Or.inr (Or.inl hcs)))
      · rw [if_neg hcs]
        match hfind : calculateMinSyllablesNeeded
            (letters.filter (fun l => ¬ isVowel l)).length
            (letters.filter (fun l => isVowel l)).length with
        | none =>
          dsimp only
          refine iff_of_true ⟨_, rfl⟩ (Or.inr (Or.inr (Or.inr ?_)))
          intro L h1 h19
          have hmem : L ∈ List.range' 1 19 := by
            rw [List.mem_range']
            exact ⟨L - 1, by omega, by omega⟩
          have hnone := List.find?_eq_none.mp hfind L hmem
          simpa using hnone
        | some minL =>
          dsimp only
          refine iff_of_false ?_ ?_
          · rintro ⟨e, he⟩
            simp at he
          · intro hcon
            have hall2 : ∀ l ∈ letters, l ∈ asciiChars := by simpa using hall
            rcases hcon with h | h | h | h
            · exact h hall2
            · exact hvs h
            · exact hcs h
            · obtain ⟨hp, hs, hlt, _⟩ := find?_range'_first _ 19 1 minL hfind
              have hsmall := h minL hs (by omega)
              simp only [decide_eq_true_eq] at hp
              omega
  · rw [if_pos hall]
    refine iff_of_true ⟨_, rfl⟩ (Or.inl ?_)
    intro hcon
    exact hall (by simpa using hcon)

/-- C9 counterexample: the selection b,c,a,e,i has letters of the
alphabet, two consonants and three vowels, and `(2*3)^19` reaches
`122 * 7^15` (so an address length in `1..19` covers the cell space under
the simple `A^L` convention), yet the generator fails. -/
theorem generateConfig_error_despite_pow :
    generateConfigFromLetters ['b', 'c', 'a', 'e', 'i'] =
        .error ['n', 'o', '-', 'c', 'o', 'v', 'e', 'r'] ∧
      (∀ l ∈ ['b', 'c', 'a', 'e', 'i'], l ∈ asciiChars) ∧
      (['b', 'c', 'a', 'e', 'i'].filter (fun l => isVowel l)).length = 3 ∧
      (['b', 'c', 'a', 'e', 'i'].filter (fun l => ¬ isVowel l)).length = 2 ∧
      h3Target ≤ (2 * 3) ^ 19 := by
  refine ⟨by rfl, by decide, by decide, by decide, by decide⟩

/-! ## Claim C5: the canonical identifier -/

theorem base26Val_cons (c : Char) (l : List Char) :
    base26Val (c :: l) = (c.toNat - 97) * 26 ^ l.length + base26Val l := by
  rw [base26Val, base26Val, List.map_cons, digitsMSVal_eq, List.reverse_cons,
    digitsLEVal_append_single, digitsMSVal_eq]
  simp [Nat.add_comm]

theorem toNat_base26Digit (v : Nat) :
    (Char.ofNat (97 + v % 26)).toNat = 97 + v % 26 := by
  have h : v % 26 < 26 := Nat.mod_lt _ (by norm_num)
  have hvalid : Nat.isValidChar (97 + v % 26) := Or.inl (by omega)
  rw [Char.ofNat, dif_pos hvalid, Char.ofNatAux]
  simp [Char.toNat, UInt32.toNat, UInt32.ofNatCore]

theorem base26Aux_val (v : Nat) :
    ∀ acc : List Char, base26Val (base26Aux v acc) = v * 26 ^ acc.length + base26Val acc := by
  induction v using Nat.strong_induction_on with
  | _ v ih =>
    intro acc
    by_cases hv : v = 0
    · subst hv
      rw [base26Aux]
      simp
    · rw [base26Aux, dif_neg hv]
      have hlt : v / 26 < v := Nat.div_lt_self (Nat.pos_of_ne_zero hv) (by norm_num)
      rw [ih (v / 26) hlt (Char.ofNat (97 + v % 26) :: acc), base26Val_cons,
        toNat_base26Digit]
      have hlen : (Char.ofNat (97 + v % 26) :: acc).length = acc.length + 1 := rfl
      rw [hlen]
      have hsplit : 26 * (v / 26) + v % 26 = v := Nat.div_add_mod v 26
      calc v / 26 * 26 ^ (acc.length + 1) + ((97 + v % 26 - 97) * 26 ^ acc.length +
            base26Val acc)
          = (26 * (v / 26) + v % 26) * 26 ^ acc.length + base26Val acc := by
            have : 97 + v % 26 - 97 = v % 26 := by omega
            rw [this]
            ring
        _ = v * 26 ^ acc.length + base26Val acc := by rw [hsplit]

theorem mem_base26Aux (v : Nat) :
    ∀ acc : List Char, (∀ c ∈ acc, 'a' ≤ c ∧ c ≤ 'z') →
      ∀ c ∈ base26Aux v acc, 'a' ≤ c ∧ c ≤ 'z' := by
  induction v using Nat.strong_induction_on with
  | _ v ih =>
    intro acc hacc c hc
    by_cases hv : v = 0
    · subst hv
      rw [base26Aux] at hc
      simp only [dif_pos] at hc
      exact hacc c hc
    · rw [base26Aux, dif_neg hv] at hc
      have hlt : v / 26 < v := Nat.div_lt_self (Nat.pos_of_ne_zero hv) (by norm_num)
      refine ih (v / 26) hlt _ ?_ c hc
      intro x hx
      rcases List.mem_cons.mp hx with h1 | h1
      · subst h1
        have hmod : v % 26 < 26 := Nat.mod_lt _ (by norm_num)
        have ht := toNat_base26Digit v
        constructor
        · rw [Char.le_def]
          show 97 ≤ (Char.ofNat (97 + v % 26)).toNat
          omega
        · rw [Char.le_def]
          show (Char.ofNat (97 + v % 26)).toNat ≤ 122
          omega
      · exact hacc x h1

/-- C5: the canonical identifier is a deterministic pure function of the
letter selection's membership set: it renders the little-endian value of
the binary membership vector in base 26 with lowercase letters a..z, and
two selections with the same members (regardless of order or duplicates)
receive the identical identifier. -/
theorem identifier_deterministic (s1 s2 : List Char)
    (h12 : ∀ c ∈ s1, c ∈ s2) (h21 : ∀ c ∈ s2, c ∈ s1) :
    identifierOf s1 = identifierOf s2 ∧
      base26Val (identifierOf s1) = binaryValue (createBinaryArray s1) ∧
      ∀ c ∈ identifierOf s1, 'a' ≤ c ∧ c ≤ 'z' := by
  have harr : createBinaryArray s1 = createBinaryArray s2 := by
    rw [createBinaryArray, createBinaryArray]
    apply List.map_congr_left
    intro a _
    by_cases h : a ∈ s1
    · rw [if_pos h, if_pos (h12 a h)]
    · rw [if_neg h, if_neg (fun hc => h (h21 a hc))]
  refine ⟨by rw [identifierOf, identifierOf, harr], ?_, ?_⟩
  · rw [identifierOf, binaryToBase26]
    by_cases h0 : binaryValue (createBinaryArray s1) = 0
    · rw [if_pos h0, h0]
      rfl
    · rw [if_neg h0, base26Aux_val]
      simp [base26Val, digitsMSVal]
  · rw [identifierOf, binaryToBase26]
    by_cases h0 : binaryValue (createBinaryArray s1) = 0
    · rw [if_pos h0]
      intro c hc
      simp only [List.mem_singleton] at hc
      subst hc
      exact ⟨le_refl _, by decide⟩
    · rw [if_neg h0]
      exact mem_base26Aux _ [] (by simp)

/-- Witness for C5: the selections b,a and a,b,b have the same members
and receive the identical identifier, with the stated rendering
properties. -/
theorem identifier_deterministic_witness :
    identifierOf ['b', 'a'] = identifierOf ['a', 'b', 'b'] ∧
      base26Val (identifierOf ['b', 'a']) = binaryValue (createBinaryArray ['b', 'a']) ∧
      ∀ c ∈ identifierOf ['b', 'a'], 'a' ≤ c ∧ c ≤ 'z' :=
  identifier_deterministic ['b', 'a'] ['a', 'b', 'b'] (by decide) (by decide)

/-! ## Claims C3 and C10: the Hamiltonian ordering record -/

theorem pairsAdjacent_get (graph : Nat → List Nat) :
    ∀ path : List Nat, pairsAdjacent graph path = true →
      ∀ (i : Nat) (hi : i + 1 < path.length),
        path.get ⟨i + 1, hi⟩ ∈ graph (path.get ⟨i, Nat.lt_of_succ_lt hi⟩)
  | [] => by intro _ i hi; simp at hi
  | [_] => by intro _ i hi; simp at hi
  | a :: b :: rest => by
    intro h i hi
    rw [pairsAdjacent, Bool.and_eq_true] at h
    obtain ⟨h1, h2⟩ := h
    have hmem : b ∈ graph a := by
      have := List.elem_iff.mp h1
      exact this
    match i with
    | 0 => exact hmem
    | j + 1 =>
      have hj : j + 1 < (b :: rest).length := by
        simp only [List.length_cons] at hi ⊢
        omega
      exact pairsAdjacent_get graph (b :: rest) h2 j hj

theorem validatePath_spec (cells : List Nat) (graph : Nat → List Nat) (path : List Nat)
    (h : validatePath cells graph path = true) :
    path.length = cells.length ∧ path.Nodup ∧ (∀ c, c ∈ path ↔ c ∈ cells) ∧
      pairsAdjacent graph path = true := by
  rw [validatePath] at h
  simp only [Bool.and_eq_true, beq_iff_eq, decide_eq_true_eq, List.all_eq_true] at h
  obtain ⟨⟨⟨⟨hlen, hnd⟩, hset⟩, _⟩, hadj⟩ := h
  refine ⟨hlen, hnd, ?_, hadj⟩
  intro c
  constructor
  · intro hc
    exact List.elem_iff.mp (hset.2 c hc)
  · intro hc
    exact List.elem_iff.mp (hset.1 c hc)

theorem generateHamiltonianOrdering_some (cells : List Nat) (graph : Nat → List Nat)
    (sr : Option (List Nat)) (cfg : OrderingConfig)
    (h : generateHamiltonianOrdering cells graph sr = some cfg) :
    ∃ path, sr = some path ∧ validatePath cells graph path = true ∧
      cfg = generateOrderingConfig path := by
  match sr with
  | none => simp [generateHamiltonianOrdering] at h
  | some path =>
    rw [generateHamiltonianOrdering] at h
    by_cases hnil : path = []
    · rw [if_pos hnil] at h
      simp at h
    · rw [if_neg hnil] at h
      by_cases hval : validatePath cells graph path = true
      · rw [if_pos hval] at h
        simp only [Option.some.injEq] at h
        exact ⟨path, rfl, hval, h.symm⟩
      · rw [if_neg hval] at h
        simp at h

/-- C3: whenever the Hamiltonian ordering generator returns a record, its
`cell_order` has length 122 (the number of base cells), contains each
base-cell index exactly once, and every consecutive pair of cells is a
neighbor in the adjacency graph — the validation performed after the
search and before the record is produced guarantees it. -/
theorem hamiltonian_record_valid (cells : List Nat) (graph : Nat → List Nat)
    (sr : Option (List Nat)) (cfg : OrderingConfig) (h122 : cells.length = 122)
    (h : generateHamiltonianOrdering cells graph sr = some cfg) :
    cfg.cellOrder.length = 122 ∧ cfg.cellOrder.Nodup ∧
      (∀ c, c ∈ cfg.cellOrder ↔ c ∈ cells) ∧
      ∀ (i : Nat) (hi : i + 1 < cfg.cellOrder.length),
        cfg.cellOrder.get ⟨i + 1, hi⟩ ∈
          graph (cfg.cellOrder.get ⟨i, Nat.lt_of_succ_lt hi⟩) := by
  obtain ⟨path, _, hval, hcfg⟩ := generateHamiltonianOrdering_some cells graph sr cfg h
  obtain ⟨hlen, hnd, hset, hadj⟩ := validatePath_spec cells graph path hval
  subst hcfg
  exact ⟨by rw [generateOrderingConfig] at *; exact h122 ▸ hlen, hnd, hset,
    pairsAdjacent_get graph path hadj⟩

set_option maxRecDepth 8000 in
/-- Witness for C3: a line graph on 122 cells and the identity path. -/
theorem hamiltonian_record_valid_witness :
    (generateOrderingConfig (List.range 122)).cellOrder.length = 122 ∧
      (generateOrderingConfig (List.range 122)).cellOrder.Nodup ∧
      (∀ c, c ∈ (generateOrderingConfig (List.range 122)).cellOrder ↔
        c ∈ List.range 122) ∧
      ∀ (i : Nat) (hi : i + 1 < (generateOrderingConfig (List.range 122)).cellOrder.length),
        (generateOrderingConfig (List.range 122)).cellOrder.get ⟨i + 1, hi⟩ ∈
          lineGraph ((generateOrderingConfig (List.range 122)).cellOrder.get
            ⟨i, Nat.lt_of_succ_lt hi⟩) :=
  hamiltonian_record_valid (List.range 122) lineGraph (some (List.range 122))
    (generateOrderingConfig (List.range 122)) (by simp) (by decide)

theorem dictLookup_aux_not_mem (key : Nat) :
    ∀ (path : List Nat) (k : Nat) (acc : Option Nat), key ∉ path →
      ((List.enumFrom k path).map (fun p => (p.2, p.1))).foldl
        (fun acc p => if p.1 == key then some p.2 else acc) acc = acc
  | [], _, _ => by intro _; rfl
  | x :: xs, k, acc => by
    intro hmem
    have hx : x ≠ key := fun hc => hmem (hc ▸ List.mem_cons_self x xs)
    rw [List.enumFrom_cons, List.map_cons, List.foldl_cons]
    have hif : (if x == key then some k else acc) = acc := by
      rw [if_neg (by simpa using hx)]
    rw [hif]
    exact dictLookup_aux_not_mem key xs (k + 1) acc
      (fun hc => hmem (List.mem_cons_of_mem x hc))

theorem dictLookup_aux_get :
    ∀ (path : List Nat), path.Nodup →
      ∀ (i : Nat) (hi : i < path.length) (k : Nat) (acc : Option Nat),
        ((List.enumFrom k path).map (fun p => (p.2, p.1))).foldl
          (fun acc p => if p.1 == path.get ⟨i, hi⟩ then some p.2 else acc) acc =
          some (k + i)
  | [] => by intro _ i hi; simp at hi
  | x :: xs => by
    intro hnd i hi k acc
    rw [List.enumFrom_cons, List.map_cons, List.foldl_cons]
    obtain ⟨hx, hxs⟩ := List.nodup_cons.mp hnd
    match i with
    | 0 =>
      have hget : (x :: xs).get ⟨0, hi⟩ = x := rfl
      rw [hget, if_pos (by simp)]
      have := dictLookup_aux_not_mem x xs (k + 1) (some k) hx
      simpa using this
    | j + 1 =>
      have hj : j < xs.length := Nat.lt_of_succ_lt_succ hi
      have hget : (x :: xs).get ⟨j + 1, hi⟩ = xs.get ⟨j, hj⟩ := rfl
      have hxne : x ≠ xs.get ⟨j, hj⟩ := fun hc => hx (hc ▸ List.get_mem xs j hj)
      rw [hget, if_neg (by simpa using hxne)]
      have := dictLookup_aux_get xs hxs j hj (k + 1) acc
      rw [this]
      congr 1
      omega

theorem dictLookup_positionEntries (path : List Nat) (hnd : path.Nodup)
    (i : Nat) (hi : i < path.length) :
    dictLookup (positionEntries path) (path.get ⟨i, hi⟩) = some i := by
  rw [dictLookup, positionEntries, List.enum_eq_enumFrom]
  have := dictLookup_aux_get path hnd i hi 0 none
  simpa using this

/-- C10: in every record produced by the Hamiltonian ordering generator,
`position_map` is the exact inverse of `cell_order`: looking up the cell
at position `p` gives `p`, and looking up any cell of `cell_order` gives
a position holding that cell, so the two fields form a bijection between
original indices and positions. -/
theorem position_map_inverse (cells : List Nat) (graph : Nat → List Nat)
    (sr : Option (List Nat)) (cfg : OrderingConfig)
    (h : generateHamiltonianOrdering cells graph sr = some cfg) :
    (∀ (p : Nat) (hp : p < cfg.cellOrder.length),
        dictLookup cfg.positionMap (cfg.cellOrder.get ⟨p, hp⟩) = some p) ∧
      ∀ c ∈ cfg.cellOrder, ∃ q, dictLookup cfg.positionMap c = some q ∧
        cfg.cellOrder.get? q = some c := by
  obtain ⟨path, _, hval, hcfg⟩ := generateHamiltonianOrdering_some cells graph sr cfg h
  obtain ⟨_, hnd, _, _⟩ := validatePath_spec cells graph path hval
  subst hcfg
  constructor
  · intro p hp
    exact dictLookup_positionEntries path hnd p hp
  · intro c hc
    obtain ⟨⟨q, hq⟩, hget⟩ := List.get_of_mem hc
    refine ⟨q, ?_, ?_⟩
    · rw [← hget]
      exact dictLookup_positionEntries path hnd q hq
    · rw [List.get?_eq_get hq, hget]

/-- Witness for C10: the three-cell path 3,4,5 on the line graph. -/
theorem position_map_inverse_witness :
    (∀ (p : Nat) (hp : p < (generateOrderingConfig [3, 4, 5]).cellOrder.length),
        dictLookup (generateOrderingConfig [3, 4, 5]).positionMap
          ((generateOrderingConfig [3, 4, 5]).cellOrder.get ⟨p, hp⟩) = some p) ∧
      ∀ c ∈ (generateOrderingConfig [3, 4, 5]).cellOrder,
        ∃ q, dictLookup (generateOrderingConfig [3, 4, 5]).positionMap c = some q ∧
          (generateOrderingConfig [3, 4, 5]).cellOrder.get? q = some c :=
  position_map_inverse [3, 4, 5] lineGraph (some [3, 4, 5])
    (generateOrderingConfig [3, 4, 5]) (by decide)
